import Mathlib

/-!
Verification of the mcp-state-sync core: policy resolution (glob matching,
first-match-wins rule evaluation, caching, eager validation) and the
annotation pipeline (description decoration, failed-call invalidation
guard, response decoration). Definitions are shallow embeddings of the
TypeScript sources in src/: GlobMatcher.ts, PolicyValidator.ts,
PolicyEngine.ts, DescriptionDecorator.ts, CausalEngine.ts,
ResponseDecorator.ts and ServerWrapper.ts.
-/

/-- JavaScript truthiness of a possibly-absent string: an absent value and
the empty string are falsy, every other string is truthy. -/
def jsTruthyStr : Option String → Bool
  | none => false
  | some s => s ≠ ""

/-- Accumulator for jsSplitDot: models the traversal of
String.prototype.split with separator given as a dot. -/
def splitAux : List Char → List Char → List String
  | [], acc => [String.mk acc.reverse]
  | c :: rest, acc =>
    if c = '.' then String.mk acc.reverse :: splitAux rest [] else splitAux rest (c :: acc)

/-- Model of the JavaScript expression s.split() with a dot separator, as
used by GlobMatcher.ts and PolicyValidator.ts. The empty string splits to a
one-element list holding the empty string, exactly as in JavaScript. -/
def jsSplitDot (s : String) : List String :=
  splitAux s.data []

/-- Model of Array.prototype.join with separator a comma and a space, as
used by ResponseDecorator.ts. -/
def joinComma : List String → String
  | [] => ""
  | [x] => x
  | x :: y :: rest => x ++ ", " ++ joinComma (y :: rest)

/-- Embedding of matchSegments from GlobMatcher.ts: recursive simultaneous
consumption of pattern segments and name segments. The four clauses mirror
the four guarded returns of the source. -/
def matchSegments : List String → List String → Bool
  | [], [] => true
  | [], _ :: _ => false
  | p :: ps, [] => (p :: ps).all (fun s => s == "**")
  | p :: ps, n :: ns =>
    if p = "**" then matchSegments ps (n :: ns) || matchSegments (p :: ps) ns
    else if p = "*" ∨ p = n then matchSegments ps ns
    else false
termination_by ps ns => ps.length + ns.length
decreasing_by all_goals simp_arith

/-- Embedding of matchGlob from GlobMatcher.ts: split both strings on dots
and run the segment matcher. -/
def matchGlob (pattern : String) (name : String) : Bool :=
  matchSegments (jsSplitDot pattern) (jsSplitDot name)

/-- Embedding of the SyncPolicy record from types.ts. The source field
named match is rendered matchPat because that word is reserved in Lean. -/
structure SyncPolicy where
  matchPat : String
  cacheControl : Option String
  invalidates : Option (List String)
deriving DecidableEq, Repr

/-- Embedding of the ResolvedPolicy record from types.ts. -/
structure ResolvedPolicy where
  cacheControl : Option String
  invalidates : Option (List String)
deriving DecidableEq, Repr

/-- Embedding of the VALID_DIRECTIVES set from PolicyValidator.ts. -/
def VALID_DIRECTIVES : List String := ["no-store", "immutable"]

/-- Embedding of the VALID_SEGMENT test from PolicyValidator.ts: a segment
is one or two stars, or a nonempty run of alphanumerics, underscore and
hyphen. -/
def validSegment (s : String) : Bool :=
  s = "*" || s = "**" || (s ≠ "" && s.data.all fun c => c.isAlphanum || c = '_' || c = '-')

/-- The per-policy body of the validation loop in validatePolicies of
PolicyValidator.ts, rendered as a boolean: true when the checks pass and
false when the source would throw. -/
def validatePolicy (p : SyncPolicy) : Bool :=
  p.matchPat ≠ "" &&
  (jsSplitDot p.matchPat).all validSegment &&
  (match p.cacheControl with
   | some c => VALID_DIRECTIVES.contains c
   | none => true) &&
  (match p.invalidates with
   | some l => l.all fun s => s ≠ ""
   | none => true)

/-- Embedding of validatePolicies from PolicyValidator.ts: every declared
policy must pass the per-policy checks. -/
def validatePolicies (ps : List SyncPolicy) : Bool :=
  ps.all validatePolicy

/-- Embedding of validateDefaults from PolicyValidator.ts. -/
def validateDefaults (d : Option String) : Bool :=
  match d with
  | some c => VALID_DIRECTIVES.contains c
  | none => true

/-- Embedding of the PolicyEngine constructor: validation must pass before
an engine exists, so construction yields an option. -/
def mkEngine (ps : List SyncPolicy) (d : Option String) :
    Option (List SyncPolicy × Option String) :=
  if validatePolicies ps && validateDefaults d then some (ps, d) else none

/-- The matched-rule branch of resolveUncached in PolicyEngine.ts: the
directive is the rule directive if defined else the engine default, the
invalidation list is kept only when nonempty, and when the directive is
falsy and the list absent the resolution is null. -/
def resolveMatched (p : SyncPolicy) (d : Option String) : Option ResolvedPolicy :=
  let cacheControl := match p.cacheControl with
    | some c => some c
    | none => d
  let invalidates := match p.invalidates with
    | some l => if l.length = 0 then none else some l
    | none => none
  if jsTruthyStr cacheControl = false ∧ invalidates = none then none
  else some ⟨cacheControl, invalidates⟩

/-- Embedding of resolveUncached from PolicyEngine.ts: scan policies in
declared order, take the first whose pattern matches, else fall back to a
default-only policy when the default directive is truthy. -/
def resolveUncached : List SyncPolicy → Option String → String → Option ResolvedPolicy
  | [], d, _ => if jsTruthyStr d then some ⟨d, none⟩ else none
  | p :: ps, d, name =>
    if matchGlob p.matchPat name then resolveMatched p d
    else resolveUncached ps d name

/-- The resolution cache of PolicyEngine.ts: operation name mapped to a
resolved policy or to the explicit null marker for no policy. -/
abbrev Cache := List (String × Option ResolvedPolicy)

/-- Model of Map.prototype.get on the resolution cache. -/
def cacheGet : Cache → String → Option (Option ResolvedPolicy)
  | [], _ => none
  | (k, v) :: rest, n => if k = n then some v else cacheGet rest n

/-- Embedding of resolve from PolicyEngine.ts: consult the cache first; on
a miss compute the uncached resolution, store it keyed by the name, and
return it together with the updated cache state. -/
def resolveStep (ps : List SyncPolicy) (d : Option String) (cache : Cache)
    (name : String) : Option ResolvedPolicy × Cache :=
  match cacheGet cache name with
  | some cached => (cached, cache)
  | none =>
    let r := resolveUncached ps d name
    (r, (name, r) :: cache)

/-- Spec-side resolution for the refinement claim about the engine, written
from the words of the specification: find the first rule whose pattern
matches, combine its directive with the default, keep the invalidation
list only when nonempty, collapse the everything-absent case to absence,
and fall back to a default-only policy. -/
def specMatched (r : SyncPolicy) (d : Option String) : Option ResolvedPolicy :=
  let dir := match r.cacheControl with
    | some c => some c
    | none => d
  let inv := match r.invalidates with
    | some l => if l = [] then none else some l
    | none => none
  if dir = none ∧ inv = none then none else some ⟨dir, inv⟩

/-- Spec-side first-match-wins resolution, written from the words of the
specification, to be compared with the source embedding resolveUncached. -/
def specFirstMatchResolve (rules : List SyncPolicy) (d : Option String)
    (name : String) : Option ResolvedPolicy :=
  match rules.find? (fun r => matchGlob r.matchPat name) with
  | some r => specMatched r d
  | none =>
    match d with
    | some c => some ⟨some c, none⟩
    | none => none

/-- Embedding of resolveInvalidations from CausalEngine.ts: a failed call
never invalidates; otherwise the invalidation list of the policy, else
empty. -/
def resolveInvalidations (policy : Option ResolvedPolicy) (isError : Bool) :
    List String :=
  if isError then []
  else match policy with
    | none => []
    | some p => p.invalidates.getD []

/-- The JavaScript regex whitespace class used by the backslash-s atom of
the strip pattern in DescriptionDecorator.ts. -/
def isJsSpace (c : Char) : Bool :=
  c = ' ' || c = '\t' || c = '\n' || c = '\r' || c = '\u000B' || c = '\u000C' ||
  c = '\u00A0' || c = '\u1680' || (0x2000 ≤ c.toNat && c.toNat ≤ 0x200A) ||
  c = '\u2028' || c = '\u2029' || c = '\u202F' || c = '\u205F' ||
  c = '\u3000' || c = '\uFEFF'

/-- The JavaScript regex word class used by the backslash-w atom of the
strip pattern in DescriptionDecorator.ts. -/
def isWordChar (c : Char) : Bool :=
  c.isAlphanum || c = '_'

/-- The literal header of the strip pattern from DescriptionDecorator.ts. -/
def ccHeader : List Char := "[Cache-Control:".data

/-- Whether a character sequence matches the whole CACHE_CONTROL_PATTERN
regex of DescriptionDecorator.ts: optional whitespace, the literal header,
optional whitespace, one word character, any run of characters other than
a closing bracket, then a closing bracket ending the sequence. Every
quantifier boundary in that regex is forced, so the match is computed
deterministically. -/
def isCCMatch (s : List Char) : Bool :=
  let t := s.dropWhile isJsSpace
  if ccHeader.isPrefixOf t then
    let v := (t.drop ccHeader.length).dropWhile isJsSpace
    match v with
    | [] => false
    | c :: rest =>
      isWordChar c && !rest.isEmpty && rest.getLastD ' ' == ']' &&
        rest.dropLast.all (fun x => x ≠ ']')
  else false

/-- Model of String.prototype.replace with the CACHE_CONTROL_PATTERN regex
and an empty replacement: the match is anchored at the end of the string,
so the replacement keeps the prefix before the leftmost position from
which the rest of the string matches. -/
def stripCC : List Char → List Char
  | [] => []
  | c :: rest => if isCCMatch (c :: rest) then [] else c :: stripCC rest

/-- Whether some suffix of the character sequence matches the strip
pattern, that is, whether the replace call of DescriptionDecorator.ts
would remove anything. -/
def endsWithCC : List Char → Bool
  | [] => false
  | c :: rest => isCCMatch (c :: rest) || endsWithCC rest

/-- Embedding of the McpToolDef record from types.ts; extraFields stands
for the opaque protocol fields carried through by the object spread. -/
structure McpToolDef where
  name : String
  description : Option String
  extraFields : List (String × String)
deriving DecidableEq, Repr

/-- Embedding of decorateDescription from DescriptionDecorator.ts: return
the tool unchanged when the policy or its directive is falsy, otherwise
strip a trailing directive annotation from the description and append the
bracketed annotation for the resolved directive. -/
def decorateDescription (tool : McpToolDef) (policy : Option ResolvedPolicy) :
    McpToolDef :=
  match policy with
  | none => tool
  | some p =>
    match p.cacheControl with
    | none => tool
    | some c =>
      if c = "" then tool
      else
        let base := String.mk (stripCC (tool.description.getD "").data)
        { tool with description := some (base ++ " [Cache-Control: " ++ c ++ "]") }

/-- Embedding of the textual content blocks of types.ts. -/
structure ContentBlock where
  type : String
  text : String
deriving DecidableEq, Repr

/-- Embedding of the McpCallResult record from types.ts; extraFields
stands for the opaque result fields carried through by the object
spread. -/
structure McpCallResult where
  content : List ContentBlock
  isError : Option Bool
  extraFields : List (String × String)
deriving DecidableEq, Repr

/-- Embedding of decorateResponse from ResponseDecorator.ts: build the
system block from the joined patterns and the causing tool name and place
it before the original content blocks. -/
def decorateResponse (result : McpCallResult) (patterns : List String)
    (causedBy : String) : McpCallResult :=
  let domains := joinComma patterns
  let systemBlock : ContentBlock :=
    ⟨"text", "[System: Cache invalidated for " ++ domains ++ " — caused by " ++ causedBy ++ "]"⟩
  { result with content := systemBlock :: result.content }

/-- Embedding of the response path of the tools-call handler registered in
ServerWrapper.ts: compute the invalidations from the resolved policy and
the failure flag, and decorate only when the invalidation list is
nonempty. The guard against an empty pattern list lives here, in the
caller of decorateResponse. -/
def handleCallResult (policy : Option ResolvedPolicy) (name : String)
    (result : McpCallResult) : McpCallResult :=
  let invalidations := resolveInvalidations policy (result.isError.getD false)
  if invalidations.length > 0 then decorateResponse result invalidations name
  else result

/-- A tool whose description ends in a whitespace character, used to
evaluate the decorator at a concrete input. -/
def toolTrailingSpace : McpToolDef := ⟨"tool", some "hi ", []⟩

/-- A tool whose description ends in a bracketed annotation that is not
one of the two emitted annotations. -/
def toolCustomAnnotation : McpToolDef :=
  ⟨"tool", some "Desc [Cache-Control: custom]", []⟩

/-- A resolved policy carrying the no-store directive. -/
def policyNoStore : Option ResolvedPolicy := some ⟨some "no-store", none⟩

/-- The two-rule configuration used by the first-match-wins example of the
specification. -/
def rulesFirstMatch : List SyncPolicy :=
  [⟨"a.b", some "immutable", none⟩, ⟨"a.*", some "no-store", none⟩]

/-- A concrete call result used to instantiate the response decoration
theorems. -/
def sampleResult : McpCallResult := ⟨[⟨"text", "ok"⟩], some false, [("k", "v")]⟩

/-- When the name is exhausted the matcher reduces to the all-double-star
test, in every pattern case. -/
theorem matchSegments_exhausted (ps : List String) :
    matchSegments ps [] = ps.all (fun s => s == "**") := by
  cases ps with
  | nil => simp [matchSegments]
  | cons p rest => simp [matchSegments]

/-- A leading double star matches exactly when some number of leading name
segments can be dropped so that the rest of the pattern matches the rest
of the name. -/
theorem matchSegments_doubleStar (ps : List String) (ns : List String) :
    matchSegments ("**" :: ps) ns = true ↔
      ∃ k, k ≤ ns.length ∧ matchSegments ps (ns.drop k) = true := by
  induction ns with
  | nil =>
    rw [matchSegments_exhausted]
    constructor
    · intro h
      refine ⟨0, Nat.le_refl 0, ?_⟩
      rw [List.drop_zero, matchSegments_exhausted]
      simpa using h
    · rintro ⟨k, _, h⟩
      rw [List.drop_nil] at h
      rw [matchSegments_exhausted] at h
      simpa using h
  | cons n ns ih =>
    have heq : matchSegments ("**" :: ps) (n :: ns) =
        (matchSegments ps (n :: ns) || matchSegments ("**" :: ps) ns) := by
      simp [matchSegments]
    rw [heq, Bool.or_eq_true, ih]
    constructor
    · rintro (h | ⟨k, hk, h⟩)
      · exact ⟨0, Nat.zero_le _, h⟩
      · exact ⟨k + 1, Nat.succ_le_succ hk, by simpa using h⟩
    · rintro ⟨k, hk, h⟩
      cases k with
      | zero => exact Or.inl (by simpa using h)
      | succ k => exact Or.inr ⟨k, Nat.le_of_succ_le_succ hk, by simpa using h⟩

/-- A pattern without wildcard segments matches exactly the segment lists
equal to it. -/
theorem matchSegments_noWildcard (ps : List String) : ∀ (ns : List String),
    (∀ s ∈ ps, s ≠ "*" ∧ s ≠ "**") → (matchSegments ps ns = true ↔ ps = ns) := by
  induction ps with
  | nil =>
    intro ns _
    cases ns with
    | nil => simp [matchSegments]
    | cons n ns => simp [matchSegments]
  | cons p ps ih =>
    intro ns h
    have hp : p ≠ "*" ∧ p ≠ "**" := h p (by simp)
    have ht : ∀ s ∈ ps, s ≠ "*" ∧ s ≠ "**" := fun s hs => h s (by simp [hs])
    cases ns with
    | nil =>
      rw [matchSegments_exhausted]
      simp [List.all_cons, hp.2]
    | cons n ns =>
      have heq : matchSegments (p :: ps) (n :: ns) =
          (if p = "*" ∨ p = n then matchSegments ps ns else false) := by
        simp [matchSegments, hp.2]
      rw [heq]
      by_cases hn : p = n
      · rw [if_pos (Or.inr hn)]
        rw [ih ns ht]
        simp [hn]
      · rw [if_neg ?_]
        · simp [hn]
        · rintro (h1 | h2)
          · exact hp.1 h1
          · exact hn h2

/-- The zero-segment double-star example of the specification. -/
theorem matchGlob_doubleStar_zero : matchGlob "a.**" "a" = true := by
  have h1 : jsSplitDot "a.**" = ["a", "**"] := rfl
  have h2 : jsSplitDot "a" = ["a"] := rfl
  unfold matchGlob
  rw [h1, h2]
  simp [matchSegments]

/-- The single-star boundary example of the specification. -/
theorem matchGlob_singleStar_bound : matchGlob "a.*" "a.b.c" = false := by
  have h1 : jsSplitDot "a.*" = ["a", "*"] := rfl
  have h2 : jsSplitDot "a.b.c" = ["a", "b", "c"] := rfl
  unfold matchGlob
  rw [h1, h2]
  simp [matchSegments]

/-- C3: the pattern matcher implements the recursive segment-consumption
semantics of the specification: two exhausted sequences match; an
exhausted pattern with remaining name segments fails; an exhausted name
matches exactly when every remaining pattern segment is a double star; a
double-star segment matches zero or more whole name segments; a
single-star segment consumes exactly one name segment unconditionally; a
literal segment consumes one segment exactly when the strings are equal;
a wildcard-free pattern matches exactly the segment-wise equal name; and
the two concrete examples hold. -/
theorem glob_matcher_semantics :
    matchSegments [] [] = true
    ∧ (∀ (n : String) (ns : List String), matchSegments [] (n :: ns) = false)
    ∧ (∀ (p : String) (ps : List String),
        matchSegments (p :: ps) [] = (p :: ps).all (fun s => s == "**"))
    ∧ (∀ (ps ns : List String), matchSegments ("**" :: ps) ns = true ↔
        ∃ k, k ≤ ns.length ∧ matchSegments ps (ns.drop k) = true)
    ∧ (∀ (ps ns : List String) (n : String),
        matchSegments ("*" :: ps) (n :: ns) = matchSegments ps ns)
    ∧ (∀ (p : String) (ps ns : List String) (n : String), p ≠ "*" → p ≠ "**" →
        matchSegments (p :: ps) (n :: ns) = (if p = n then matchSegments ps ns else false))
    ∧ (∀ (ps ns : List String), (∀ s ∈ ps, s ≠ "*" ∧ s ≠ "**") →
        (matchSegments ps ns = true ↔ ps = ns))
    ∧ matchGlob "a.**" "a" = true
    ∧ matchGlob "a.*" "a.b.c" = false := by
  refine ⟨by simp [matchSegments], fun n ns => by simp [matchSegments],
    fun p ps => by simp [matchSegments], matchSegments_doubleStar,
    fun ps ns n => by simp [matchSegments], ?_,
    fun ps ns h => matchSegments_noWildcard ps ns h,
    matchGlob_doubleStar_zero, matchGlob_singleStar_bound⟩
  intro p ps ns n h1 h2
  have heq : matchSegments (p :: ps) (n :: ns) =
      (if p = "*" ∨ p = n then matchSegments ps ns else false) := by
    simp [matchSegments, h2]
  rw [heq]
  by_cases hn : p = n
  · rw [if_pos (Or.inr hn), if_pos hn]
  · rw [if_neg ?_, if_neg hn]
    rintro (hc | hc)
    · exact h1 hc
    · exact hn hc

/-- Witness for C3: the hypothesis-bearing clauses instantiated at
concrete segment lists. -/
theorem glob_matcher_semantics_witness :
    (matchSegments ["a", "b"] ["a", "c"] = true ↔ (["a", "b"] : List String) = ["a", "c"])
    ∧ matchSegments ["x"] ["y"] = (if ("x" : String) = "y" then matchSegments [] [] else false) :=
  ⟨glob_matcher_semantics.2.2.2.2.2.2.1 ["a", "b"] ["a", "c"] (by decide),
   glob_matcher_semantics.2.2.2.2.2.1 "x" [] [] "y" (by decide) (by decide)⟩

/-- Every member of the directive vocabulary is a nonempty string, hence
truthy in the JavaScript sense. -/
theorem directive_ne_empty (c : String) (h : VALID_DIRECTIVES.contains c = true) :
    c ≠ "" := by
  intro hc
  subst hc
  simp [VALID_DIRECTIVES] at h

/-- Unpacking of the per-policy validation into its four checks. -/
theorem validatePolicy_parts (p : SyncPolicy) (h : validatePolicy p = true) :
    p.matchPat ≠ ""
    ∧ (jsSplitDot p.matchPat).all validSegment = true
    ∧ (∀ c, p.cacheControl = some c → VALID_DIRECTIVES.contains c = true)
    ∧ (∀ l, p.invalidates = some l → ∀ s ∈ l, s ≠ "") := by
  unfold validatePolicy at h
  simp only [Bool.and_eq_true] at h
  obtain ⟨⟨⟨h1, h2⟩, h3⟩, h4⟩ := h
  refine ⟨by simpa using h1, h2, ?_, ?_⟩
  · intro c hc
    rw [hc] at h3
    exact h3
  · intro l hl s hs
    rw [hl] at h4
    rw [List.all_eq_true] at h4
    simpa using h4 s hs

/-- On a validly constructed engine the matched-rule branch of the source
computes exactly the matched-rule policy described by the spec. -/
theorem resolveMatched_eq_specMatched (p : SyncPolicy) (d : Option String)
    (hp : validatePolicy p = true) (hd : validateDefaults d = true) :
    resolveMatched p d = specMatched p d := by
  obtain ⟨-, -, hcc, -⟩ := validatePolicy_parts p hp
  have hdne : ∀ c, d = some c → c ≠ "" := by
    intro c hc
    rw [hc] at hd
    exact directive_ne_empty c hd
  unfold resolveMatched specMatched
  cases hc : p.cacheControl with
  | some c =>
    have hne : c ≠ "" := directive_ne_empty c (hcc c hc)
    cases hi : p.invalidates with
    | some l =>
      simp only [jsTruthyStr, hne, List.length_eq_zero]
      simp [hne]
    | none => simp [jsTruthyStr, hne]
  | none =>
    cases hdc : d with
    | some c =>
      have hne : c ≠ "" := hdne c hdc
      cases hi : p.invalidates with
      | some l =>
        simp only [jsTruthyStr, hne, List.length_eq_zero]
        simp [hne]
      | none => simp [jsTruthyStr, hne]
    | none =>
      cases hi : p.invalidates with
      | some l => simp [jsTruthyStr, List.length_eq_zero]
      | none => simp [jsTruthyStr]

/-- On a validly constructed engine the uncached resolution of the source
equals the first-match-wins resolution described by the spec. -/
theorem resolveUncached_eq_spec (ps : List SyncPolicy) (d : Option String)
    (name : String) (hp : validatePolicies ps = true)
    (hd : validateDefaults d = true) :
    resolveUncached ps d name = specFirstMatchResolve ps d name := by
  induction ps with
  | nil =>
    cases hdc : d with
    | none => rfl
    | some c =>
      have hne : c ≠ "" := directive_ne_empty c (by rwa [hdc] at hd)
      simp [resolveUncached, specFirstMatchResolve, jsTruthyStr, hne]
  | cons p ps ih =>
    have hp1 : validatePolicy p = true := by
      unfold validatePolicies at hp
      rw [List.all_cons, Bool.and_eq_true] at hp
      exact hp.1
    have hp2 : validatePolicies ps = true := by
      unfold validatePolicies at hp ⊢
      rw [List.all_cons, Bool.and_eq_true] at hp
      exact hp.2
    by_cases hm : matchGlob p.matchPat name = true
    · have hfind : List.find? (fun r => matchGlob r.matchPat name) (p :: ps) = some p := by
        rw [List.find?_cons]
        simp [hm]
      unfold resolveUncached specFirstMatchResolve
      rw [hfind, if_pos hm]
      exact resolveMatched_eq_specMatched p d hp1 hd
    · have hm' : matchGlob p.matchPat name = false := by
        cases hmm : matchGlob p.matchPat name
        · rfl
        · exact absurd hmm hm
      have hfind : List.find? (fun r => matchGlob r.matchPat name) (p :: ps) =
          List.find? (fun r => matchGlob r.matchPat name) ps := by
        rw [List.find?_cons]
        simp [hm']
      unfold resolveUncached specFirstMatchResolve
      rw [hfind, if_neg (by simp [hm'])]
      exact ih hp2

/-- C1: on every validly constructed engine, resolution from a fresh cache
is first-match-wins with default fallback, exactly as described by the
spec-side resolution function built on the first matching rule. -/
theorem resolve_first_match (ps : List SyncPolicy) (d : Option String)
    (name : String) (hp : validatePolicies ps = true)
    (hd : validateDefaults d = true) :
    (resolveStep ps d [] name).1 = specFirstMatchResolve ps d name
    ∧ resolveUncached ps d name = specFirstMatchResolve ps d name := by
  have h := resolveUncached_eq_spec ps d name hp hd
  exact ⟨h, h⟩

/-- Witness for C1: the spec example of first-match precedence, resolved
for the name matched by the second rule. -/
theorem resolve_first_match_witness :
    validatePolicies rulesFirstMatch = true
    ∧ (resolveStep rulesFirstMatch none [] "a.c").1 =
        specFirstMatchResolve rulesFirstMatch none "a.c" :=
  ⟨by decide, (resolve_first_match rulesFirstMatch none "a.c" (by decide) (by decide)).1⟩

/-- C2: the failed-call guard is absolute: with the failure flag set the
invalidation set is empty for every policy including the absent one; with
the flag clear it is the invalidation list of the policy when present and
empty otherwise; the function is total, and the concrete example of the
specification evaluates as stated. -/
theorem causal_guard :
    (∀ (p : Option ResolvedPolicy), resolveInvalidations p true = [])
    ∧ (∀ (rp : ResolvedPolicy), resolveInvalidations (some rp) false = rp.invalidates.getD [])
    ∧ resolveInvalidations none false = []
    ∧ resolveInvalidations (some ⟨none, some ["a.*"]⟩) true = []
    ∧ resolveInvalidations (some ⟨none, some ["a.*"]⟩) false = ["a.*"] :=
  ⟨fun _ => rfl, fun _ => rfl, rfl, rfl, rfl⟩

/-- C6: one resolution stores its outcome in the cache keyed by the name,
a second resolution of the same name returns the stored outcome and leaves
the cache unchanged, and the cache only grows: every entry present before
a resolution is present unchanged after it. -/
theorem resolution_caching (ps : List SyncPolicy) (d : Option String)
    (cache : Cache) (name : String) :
    cacheGet (resolveStep ps d cache name).2 name = some (resolveStep ps d cache name).1
    ∧ resolveStep ps d (resolveStep ps d cache name).2 name = resolveStep ps d cache name
    ∧ ∀ (k : String) (v : Option ResolvedPolicy),
        cacheGet cache k = some v → cacheGet (resolveStep ps d cache name).2 k = some v := by
  cases hcg : cacheGet cache name with
  | some v =>
    refine ⟨?_, ?_, ?_⟩
    · simp [resolveStep, hcg]
    · simp [resolveStep, hcg]
    · intro k w h
      simp [resolveStep, hcg, h]
  | none =>
    have hstep : resolveStep ps d cache name =
        (resolveUncached ps d name, (name, resolveUncached ps d name) :: cache) := by
      simp [resolveStep, hcg]
    refine ⟨?_, ?_, ?_⟩
    · rw [hstep]
      simp [cacheGet]
    · rw [hstep]
      simp [resolveStep, cacheGet]
    · intro k w h
      rw [hstep]
      simp only [cacheGet]
      by_cases hk : name = k
      · subst hk
        rw [hcg] at h
        exact absurd h (by simp)
      · rw [if_neg hk]
        exact h

/-- Witness for C6: the growth clause applied to a concrete engine, cache
and names. -/
theorem resolution_caching_witness :
    cacheGet (resolveStep [] none [("z", none)] "x").2 "z" = some none :=
  (resolution_caching [] none [("z", none)] "x").2.2 "z" none rfl

/-- C9: an empty rule list passes validation with or without a default,
and resolution then yields the default-only policy when a default
directive is set and the absent value otherwise. -/
theorem empty_rules_valid (d : Option String) (name : String)
    (hd : validateDefaults d = true) :
    (mkEngine [] d).isSome = true
    ∧ (resolveStep [] d [] name).1 =
        d.map (fun c => (⟨some c, none⟩ : ResolvedPolicy))
    ∧ resolveUncached [] d name =
        d.map (fun c => (⟨some c, none⟩ : ResolvedPolicy)) := by
  have hres : resolveUncached [] d name =
      d.map (fun c => (⟨some c, none⟩ : ResolvedPolicy)) := by
    cases hdc : d with
    | none => rfl
    | some c =>
      have hne : c ≠ "" := directive_ne_empty c (by rwa [hdc] at hd)
      simp [resolveUncached, jsTruthyStr, hne]
  refine ⟨?_, hres, hres⟩
  simp [mkEngine, validatePolicies, hd]

/-- Witness for C9: concrete empty-rule engines with and without a
default directive. -/
theorem empty_rules_valid_witness :
    validateDefaults (some "no-store") = true
    ∧ (mkEngine [] (some "no-store")).isSome = true
    ∧ (mkEngine [] (none : Option String)).isSome = true :=
  ⟨by decide, (empty_rules_valid (some "no-store") "anything" (by decide)).1,
   (empty_rules_valid none "anything" rfl).1⟩

/-- C5: for a nonempty pattern list, response decoration yields a result
whose content is one textual system block with exactly the specified text
followed by the original blocks in order, with the failure flag and the
opaque result fields carried through unchanged. The embedding is a pure
function on values, so the input result and its content list are not
modified. -/
theorem decorate_response_spec (r : McpCallResult) (ps : List String)
    (cause : String) (_h : ps ≠ []) :
    (decorateResponse r ps cause).content =
      ⟨"text", "[System: Cache invalidated for " ++ joinComma ps ++
        " — caused by " ++ cause ++ "]"⟩ :: r.content
    ∧ (decorateResponse r ps cause).isError = r.isError
    ∧ (decorateResponse r ps cause).extraFields = r.extraFields :=
  ⟨rfl, rfl, rfl⟩

/-- Witness for C5: the end-to-end example of the specification, with one
invalidated pattern caused by a concrete tool name. -/
theorem decorate_response_spec_witness :
    (["sprints.*"] : List String) ≠ []
    ∧ (decorateResponse sampleResult ["sprints.*"] "sprints.update").content =
        ⟨"text", "[System: Cache invalidated for " ++ joinComma ["sprints.*"] ++
          " — caused by " ++ "sprints.update" ++ "]"⟩ :: sampleResult.content :=
  ⟨by decide, (decorate_response_spec sampleResult ["sprints.*"] "sprints.update" (by decide)).1⟩

/-- C10: response decoration itself has no guard against an empty pattern
list: invoked with an empty list it still prepends a system block, whose
text contains the empty joined pattern list, and the returned content is
never the original content; the guard against empty invalidation sets
lives solely in the call handler of the server wrapper, which returns the
result unchanged whenever the resolved invalidation set is empty. -/
theorem decorate_response_no_guard :
    (∀ (r : McpCallResult) (cause : String),
      (decorateResponse r [] cause).content =
        (⟨"text", "[System: Cache invalidated for  — caused by " ++ cause ++ "]"⟩ : ContentBlock)
          :: r.content
      ∧ (decorateResponse r [] cause).content ≠ r.content)
    ∧ (∀ (policy : Option ResolvedPolicy) (name : String) (r : McpCallResult),
        resolveInvalidations policy (r.isError.getD false) = [] →
        handleCallResult policy name r = r) := by
  constructor
  · intro r cause
    refine ⟨rfl, ?_⟩
    intro hc
    have hlen := congrArg List.length hc
    simp [decorateResponse] at hlen
  · intro policy name r h
    unfold handleCallResult
    rw [h]
    simp

/-- Witness for C10: the handler guard applied to an absent policy and a
concrete result, together with the text the decorator would emit for an
empty list. -/
theorem decorate_response_no_guard_witness :
    resolveInvalidations none (sampleResult.isError.getD false) = []
    ∧ handleCallResult none "t" sampleResult = sampleResult
    ∧ (decorateResponse sampleResult [] "t").content ≠ sampleResult.content :=
  ⟨rfl, decorate_response_no_guard.2 none "t" sampleResult rfl,
   (decorate_response_no_guard.1 sampleResult "t").2⟩

/-- C4: evaluation of the decorator at a description with a trailing
whitespace character shows that decorating twice with the same policy does
not yield the same description as decorating once: the strip pattern
consumes the whitespace run before the annotation it removes, so the
second application collapses the trailing whitespace of the original
description. This contradicts the idempotence stated by the documentation
of DescriptionDecorator.ts and by the specification. -/
theorem decorate_description_not_idempotent :
    (decorateDescription toolTrailingSpace policyNoStore).description =
      some "hi  [Cache-Control: no-store]"
    ∧ (decorateDescription (decorateDescription toolTrailingSpace policyNoStore)
        policyNoStore).description = some "hi [Cache-Control: no-store]"
    ∧ decorateDescription (decorateDescription toolTrailingSpace policyNoStore)
        policyNoStore ≠ decorateDescription toolTrailingSpace policyNoStore := by
  refine ⟨by decide, by decide, by decide⟩

/-- Counterexample for C7: a rule whose invalidation list is present but
empty is accepted by validation, and engine construction succeeds, where
the claim says construction must fail. -/
theorem empty_invalidates_accepted :
    validatePolicies [⟨"a", none, some []⟩] = true
    ∧ (mkEngine [⟨"a", none, some []⟩] none).isSome = true := by
  refine ⟨by decide, by decide⟩

/-- C7 amended: validation of invalidation lists checks only that every
element of a present list is a nonempty string; a present-but-empty list
passes, and under full validity the resolution of a name matched by such a
rule treats the empty list as absent. The characterization lists all four
per-rule checks of the validator. -/
theorem validate_policies_characterization (ps : List SyncPolicy) :
    validatePolicies ps = true ↔
      ∀ p ∈ ps, p.matchPat ≠ ""
        ∧ (∀ s ∈ jsSplitDot p.matchPat, validSegment s = true)
        ∧ (∀ c, p.cacheControl = some c → VALID_DIRECTIVES.contains c = true)
        ∧ (∀ l, p.invalidates = some l → ∀ s ∈ l, s ≠ "") := by
  unfold validatePolicies
  rw [List.all_eq_true]
  constructor
  · intro h p hp
    obtain ⟨h1, h2, h3, h4⟩ := validatePolicy_parts p (h p hp)
    exact ⟨h1, by rw [List.all_eq_true] at h2; exact h2, h3, h4⟩
  · intro h p hp
    obtain ⟨h1, h2, h3, h4⟩ := h p hp
    unfold validatePolicy
    simp only [Bool.and_eq_true]
    refine ⟨⟨⟨by simpa using h1, ?_⟩, ?_⟩, ?_⟩
    · rw [List.all_eq_true]
      exact h2
    · cases hc : p.cacheControl with
      | some c => exact h3 c hc
      | none => rfl
    · cases hi : p.invalidates with
      | some l =>
        rw [List.all_eq_true]
        intro s hs
        simpa using h4 l hi s hs
      | none => rfl

/-- If no suffix of a character sequence matches the strip pattern, the
replace call of the decorator leaves the sequence unchanged. -/
theorem stripCC_of_not_endsWithCC (s : List Char) (h : endsWithCC s = false) :
    stripCC s = s := by
  induction s with
  | nil => rfl
  | cons c rest ih =>
    unfold endsWithCC at h
    rw [Bool.or_eq_false_iff] at h
    unfold stripCC
    rw [h.1]
    simp [ih h.2]

/-- Rebuilding a string from its character data yields the string. -/
theorem string_mk_data (s : String) : String.mk s.data = s := rfl

/-- Counterexample for C8: a description ending in a bracketed annotation
that is not one of the two exact emitted annotations is nevertheless
stripped, so the existing description text is not preserved. -/
theorem strip_not_exact_format_cex :
    " [Cache-Control: no-store]".data.isSuffixOf
        "Desc [Cache-Control: custom]".data = false
    ∧ " [Cache-Control: immutable]".data.isSuffixOf
        "Desc [Cache-Control: custom]".data = false
    ∧ (decorateDescription toolCustomAnnotation policyNoStore).description =
        some "Desc [Cache-Control: no-store]"
    ∧ (decorateDescription toolCustomAnnotation policyNoStore).description ≠
        some ("Desc [Cache-Control: custom]" ++ " [Cache-Control: no-store]") := by
  refine ⟨by decide, by decide, by decide, by decide⟩

/-- C8 amended: the decorator strips any trailing annotation matching the
whole regex family of CACHE_CONTROL_PATTERN, not only the two exact
emitted annotations; for every descriptor whose description, with a
missing description read as the empty string, has no trailing match of
that family, the entire description is preserved and a single space plus
the bracketed annotation for the directive is appended, with the other
descriptor fields unchanged. -/
theorem decorate_appends_when_unannotated (tool : McpToolDef) (c : String)
    (inv : Option (List String)) (hc : c ≠ "")
    (h : endsWithCC (tool.description.getD "").data = false) :
    (decorateDescription tool (some ⟨some c, inv⟩)).description =
      some ((tool.description.getD "") ++ " [Cache-Control: " ++ c ++ "]")
    ∧ (decorateDescription tool (some ⟨some c, inv⟩)).name = tool.name
    ∧ (decorateDescription tool (some ⟨some c, inv⟩)).extraFields = tool.extraFields := by
  unfold decorateDescription
  simp only []
  rw [if_neg hc]
  rw [stripCC_of_not_endsWithCC _ h, string_mk_data]
  exact ⟨rfl, rfl, rfl⟩

/-- Witness for C8 amended: a plain description with no trailing
annotation gains exactly the appended no-store annotation. -/
theorem decorate_appends_when_unannotated_witness :
    ("no-store" : String) ≠ ""
    ∧ endsWithCC ((some "Hello" : Option String).getD "").data = false
    ∧ (decorateDescription ⟨"t", some "Hello", []⟩ (some ⟨some "no-store", none⟩)).description =
        some (((some "Hello" : Option String).getD "") ++ " [Cache-Control: " ++ "no-store" ++ "]") :=
  ⟨by decide, by decide,
   (decorate_appends_when_unannotated ⟨"t", some "Hello", []⟩ "no-store" none
     (by decide) (by decide)).1⟩
